import Mathlib

/-!
Verification of the conversion helpers in `rand_core/src/impls.rs`.

Words are modelled as `Nat` (with explicit bounds where u32/u64 width
matters), byte buffers as `List Nat`, and an `RngCore` implementer as a
record of explicit state-passing operations.  Each Rust function is
embedded as a pure Lean function; the in-place mutation of the
destination buffer becomes returning the new buffer contents.
-/

set_option maxHeartbeats 1000000

/-- Little-endian byte decomposition of a word into `size` bytes,
matching Rust `to_le_bytes` (least-significant byte first). -/
def leBytes : Nat → Nat → List Nat
  | 0, _ => []
  | size + 1, w => (w % 256) :: leBytes size (w / 256)

/-- Concatenation of the `size`-byte little-endian encodings of a list of
words. -/
def wordsToBytes (size : Nat) : List Nat → List Nat
  | [] => []
  | w :: ws => leBytes size w ++ wordsToBytes size ws

/-- Model of the `RngCore` trait: each primitive consumes a state and
returns its result together with the advanced state. -/
structure RngCore (σ : Type) where
  next_u32 : σ → Nat × σ
  next_u64 : σ → Nat × σ
  fill_bytes : σ → List Nat → List Nat × σ

variable {σ : Type}

/-- State after one `next_u32` draw. -/
def stepU32 (R : RngCore σ) (s : σ) : σ := (R.next_u32 s).2

/-- State after one `next_u64` draw. -/
def stepU64 (R : RngCore σ) (s : σ) : σ := (R.next_u64 s).2

/-- State after `k` successive `next_u64` draws. -/
def iterU64 (R : RngCore σ) : Nat → σ → σ
  | 0, s => s
  | k + 1, s => iterU64 R k (stepU64 R s)

/-- The values of `k` successive `next_u64` draws starting from state `s`,
in draw order. -/
def u64Words (R : RngCore σ) (s : σ) : Nat → List Nat
  | 0 => []
  | k + 1 => (R.next_u64 s).1 :: u64Words R (stepU64 R s) k

/-- A well-formed 32-bit source only returns values below `2^32`. -/
def RngCore.WfU32 (R : RngCore σ) : Prop :=
  ∀ s : σ, (R.next_u32 s).1 < 2 ^ 32

/-- Embedding of `next_u64_via_u32`: draw two 32-bit words `x` then `y`
and combine them as `(y << 32) | x`. -/
def next_u64_via_u32 (R : RngCore σ) (s : σ) : Nat × σ :=
  let x := R.next_u32 s
  let y := R.next_u32 x.2
  ((y.1 <<< 32) ||| x.1, y.2)

/-- Embedding of `fill_bytes_via_next`: while at least 8 destination bytes
remain, draw a `u64` and write its 8 little-endian bytes; for a final
remainder of `n` bytes draw one `u64` when `n > 4`, one `u32` when
`0 < n ≤ 4`, nothing when `n = 0`.  Returns the new buffer contents and
the final generator state. -/
def fill_bytes_via_next (R : RngCore σ) (s : σ) (dest : List Nat) :
    List Nat × σ :=
  if h : 8 ≤ dest.length then
    let w := R.next_u64 s
    let q := fill_bytes_via_next R w.2 (dest.drop 8)
    (leBytes 8 w.1 ++ q.1, q.2)
  else if 4 < dest.length then
    ((leBytes 8 (R.next_u64 s).1).take dest.length, (R.next_u64 s).2)
  else if 0 < dest.length then
    ((leBytes 4 (R.next_u32 s).1).take dest.length, (R.next_u32 s).2)
  else (dest, s)
termination_by dest.length
decreasing_by simp [List.length_drop]; omega

/-- The copy loop of the `fill_via_chunks!` macro body: write full
`size`-byte chunks while both a full destination chunk and a source word
remain; the final partial destination chunk receives a prefix of the next
word's encoding when a word is left.  Returns the new buffer contents. -/
def fillLoop (size : Nat) : List Nat → List Nat → List Nat
  | [], dest => dest
  | w :: ws, dest =>
    if size ≤ dest.length then
      leBytes size w ++ fillLoop size ws (dest.drop size)
    else
      (leBytes size w).take dest.length

/-- Embedding of the `fill_via_chunks!` macro body: returns
`(chunk_size, chunk_size_u8, new destination contents)` where
`chunk_size_u8 = min (src.len * SIZE) dest.len` and
`chunk_size = (chunk_size_u8 + SIZE - 1) / SIZE`. -/
def fill_via_chunks (size : Nat) (src dest : List Nat) :
    Nat × Nat × List Nat :=
  ((min (src.length * size) dest.length + size - 1) / size,
    min (src.length * size) dest.length,
    fillLoop size src dest)

/-- Embedding of `fill_via_u32_chunks` (word size 4). -/
def fill_via_u32_chunks (src dest : List Nat) : Nat × Nat × List Nat :=
  fill_via_chunks 4 src dest

/-- Embedding of `fill_via_u64_chunks` (word size 8). -/
def fill_via_u64_chunks (src dest : List Nat) : Nat × Nat × List Nat :=
  fill_via_chunks 8 src dest

/-- Little-endian reinterpretation of a byte list as a number. -/
def fromLEBytes : List Nat → Nat
  | [] => 0
  | b :: bs => b + 256 * fromLEBytes bs

/-- Big-endian reinterpretation of a byte list as a number. -/
def fromBEBytes (bs : List Nat) : Nat :=
  bs.foldl (fun acc b => 256 * acc + b) 0

/-- Rust `from_ne_bytes`, parameterised by the platform's endianness. -/
def from_ne_bytes (littleEndian : Bool) (bs : List Nat) : Nat :=
  if littleEndian then fromLEBytes bs else fromBEBytes bs

/-- Embedding of `next_u32_via_fill`: fill a 4-byte zero buffer once and
reinterpret it native-endian. -/
def next_u32_via_fill (littleEndian : Bool) (R : RngCore σ) (s : σ) :
    Nat × σ :=
  let r := R.fill_bytes s (List.replicate 4 0)
  (from_ne_bytes littleEndian r.1, r.2)

/-- Embedding of `next_u64_via_fill`: fill an 8-byte zero buffer once and
reinterpret it native-endian. -/
def next_u64_via_fill (littleEndian : Bool) (R : RngCore σ) (s : σ) :
    Nat × σ :=
  let r := R.fill_bytes s (List.replicate 8 0)
  (from_ne_bytes littleEndian r.1, r.2)

/-- Rust `copy_from_slice`: panics (here `none`) unless the lengths agree,
otherwise the destination takes the source's contents. -/
def copyFromSlice (dst src : List Nat) : Option (List Nat) :=
  if dst.length = src.length then some src else none

/-- Panic-checked variant of the chunk copy loop: every `copy_from_slice`
length precondition and every slice bound is checked and violation yields
`none`. -/
def fillLoopChecked (size : Nat) : List Nat → List Nat → Option (List Nat)
  | [], dest => some dest
  | w :: ws, dest =>
    if size ≤ dest.length then
      match copyFromSlice (dest.take size) (leBytes size w) with
      | none => none
      | some c =>
        match fillLoopChecked size ws (dest.drop size) with
        | none => none
        | some rest => some (c ++ rest)
    else
      if dest.length ≤ size then
        copyFromSlice dest ((leBytes size w).take dest.length)
      else none

/-- Panic-checked variant of `fill_via_chunks`: `chunks_exact_mut` rejects
a zero chunk size, and the copy loop is checked. -/
def fill_via_chunks_checked (size : Nat) (src dest : List Nat) :
    Option (Nat × Nat × List Nat) :=
  if size = 0 then none
  else
    (fillLoopChecked size src dest).map fun out =>
      ((min (src.length * size) dest.length + size - 1) / size,
        min (src.length * size) dest.length, out)

/-- Panic-checked variant of `fill_bytes_via_next`: `split_at_mut`,
`copy_from_slice` and byte-slicing bounds are all checked. -/
def fill_bytes_via_next_checked (R : RngCore σ) (s : σ) (dest : List Nat) :
    Option (List Nat × σ) :=
  if h : 8 ≤ dest.length then
    match copyFromSlice (dest.take 8) (leBytes 8 (R.next_u64 s).1) with
    | none => none
    | some c =>
      match fill_bytes_via_next_checked R (stepU64 R s) (dest.drop 8) with
      | none => none
      | some q => some (c ++ q.1, q.2)
  else if 4 < dest.length then
    if dest.length ≤ 8 then
      (copyFromSlice dest ((leBytes 8 (R.next_u64 s).1).take dest.length)).map
        fun c => (c, stepU64 R s)
    else none
  else if 0 < dest.length then
    if dest.length ≤ 4 then
      (copyFromSlice dest ((leBytes 4 (R.next_u32 s).1).take dest.length)).map
        fun c => (c, stepU32 R s)
    else none
  else some (dest, s)
termination_by dest.length
decreasing_by simp [List.length_drop]; omega

/-- Spec-side description of `fill_bytes_via_next`'s output bytes, written
from the documented algorithm: with `k = N / 8` and `r = N % 8`, the first
`N` bytes of the concatenated little-endian encodings of the `u64` draws
(`k` of them, plus one more when `r > 4`), followed by the encoding of one
`u32` draw when `0 < r ≤ 4`. -/
def fillBytesSpec (R : RngCore σ) (s : σ) (N : Nat) : List Nat :=
  List.take N
    (wordsToBytes 8 (u64Words R s (N / 8 + if 4 < N % 8 then 1 else 0)) ++
      if 0 < N % 8 ∧ N % 8 ≤ 4 then
        leBytes 4 (R.next_u32 (iterU64 R (N / 8) s)).1
      else [])

theorem leBytes_length (size w : Nat) : (leBytes size w).length = size := by
  induction size generalizing w with
  | zero => rfl
  | succ n ih => simp [leBytes, ih]

theorem fbvn_ge8 (R : RngCore σ) (s : σ) (dest : List Nat)
    (h : 8 ≤ dest.length) :
    fill_bytes_via_next R s dest =
      (leBytes 8 (R.next_u64 s).1 ++
          (fill_bytes_via_next R (stepU64 R s) (dest.drop 8)).1,
        (fill_bytes_via_next R (stepU64 R s) (dest.drop 8)).2) := by
  rw [fill_bytes_via_next]
  simp [h, stepU64]

theorem fbvn_mid (R : RngCore σ) (s : σ) (dest : List Nat)
    (h4 : 4 < dest.length) (h8 : dest.length < 8) :
    fill_bytes_via_next R s dest =
      ((leBytes 8 (R.next_u64 s).1).take dest.length, stepU64 R s) := by
  rw [fill_bytes_via_next]
  simp [Nat.not_le.mpr h8, h4, stepU64]

theorem fbvn_small (R : RngCore σ) (s : σ) (dest : List Nat)
    (h0 : 0 < dest.length) (h4 : dest.length ≤ 4) :
    fill_bytes_via_next R s dest =
      ((leBytes 4 (R.next_u32 s).1).take dest.length, stepU32 R s) := by
  rw [fill_bytes_via_next]
  simp [show ¬ 8 ≤ dest.length by omega, show ¬ 4 < dest.length by omega, h0,
    stepU32]

theorem fbvn_zero (R : RngCore σ) (s : σ) (dest : List Nat)
    (h : dest.length = 0) : fill_bytes_via_next R s dest = (dest, s) := by
  rw [fill_bytes_via_next]
  simp [h]

theorem fill_bytes_via_next_length (R : RngCore σ) (s : σ)
    (dest : List Nat) : (fill_bytes_via_next R s dest).1.length = dest.length := by
  generalize hk : dest.length / 8 = k
  induction k generalizing s dest with
  | zero =>
    have h8 : dest.length < 8 := by omega
    by_cases h4 : 4 < dest.length
    · rw [fbvn_mid R s dest h4 h8]
      simp [List.length_take, leBytes_length]
      omega
    · by_cases h0 : 0 < dest.length
      · rw [fbvn_small R s dest h0 (by omega)]
        simp [List.length_take, leBytes_length]
        omega
      · rw [fbvn_zero R s dest (by omega)]
  | succ k ih =>
    have h8 : 8 ≤ dest.length := by omega
    rw [fbvn_ge8 R s dest h8]
    have hdrop : (dest.drop 8).length / 8 = k := by
      simp [List.length_drop]
      omega
    simp [List.length_append, leBytes_length, ih (stepU64 R s) (dest.drop 8) hdrop]
    omega

theorem fillLoop_length (size : Nat) (hs : 0 < size) (src dest : List Nat) :
    (fillLoop size src dest).length = dest.length := by
  induction src generalizing dest with
  | nil => rfl
  | cons w ws ih =>
    by_cases h : size ≤ dest.length
    · simp [fillLoop, h, leBytes_length, ih]
    · simp [fillLoop, h, List.length_take, leBytes_length]
      omega

theorem fillLoop_take_eq (size : Nat) (hs : 0 < size) (src dest : List Nat) :
    (fillLoop size src dest).take (min (src.length * size) dest.length) =
      (wordsToBytes size
          (src.take
            ((min (src.length * size) dest.length + size - 1) / size))).take
        (min (src.length * size) dest.length) := by
  induction src generalizing dest with
  | nil => simp [fillLoop, wordsToBytes]
  | cons w ws ih =>
    by_cases h : size ≤ dest.length
    · have hf : min ((w :: ws).length * size) dest.length
          = size + min (ws.length * size) (dest.length - size) := by
        simp only [List.length_cons, Nat.succ_mul]
        generalize ws.length * size = a
        omega
      have hstep : (min (ws.length * size) (dest.length - size) + size - 1)
            + size
          = min ((w :: ws).length * size) dest.length + size - 1 := by
        rw [hf]
        generalize min (ws.length * size) (dest.length - size) = b
        omega
      have hc : (min ((w :: ws).length * size) dest.length + size - 1) / size
          = (min (ws.length * size) (dest.length - size) + size - 1) / size
            + 1 := by
        rw [← hstep, Nat.add_div_right _ hs]
      rw [hc, hf]
      simp only [fillLoop, if_pos h, List.take_succ_cons, wordsToBytes]
      rw [List.take_append_eq_append_take, List.take_append_eq_append_take]
      rw [List.take_of_length_le (by rw [leBytes_length]; omega)]
      rw [leBytes_length, Nat.add_sub_cancel_left]
      have ihd := ih (dest.drop size)
      rw [List.length_drop] at ihd
      rw [ihd]
    · have hf : min ((w :: ws).length * size) dest.length = dest.length := by
        simp only [List.length_cons, Nat.succ_mul]
        generalize ws.length * size = a
        omega
      by_cases hD0 : dest.length = 0
      · rw [hf, hD0]
        simp
      · have hc : (min ((w :: ws).length * size) dest.length + size - 1) / size
            = 1 := by
          rw [hf]
          exact Nat.div_eq_of_lt_le (by omega) (by omega)
        rw [hc, hf]
        simp only [fillLoop, if_neg h, List.take_succ_cons, List.take_zero,
          wordsToBytes, List.append_nil]
        rw [List.take_take]
        simp

theorem fillLoop_drop_eq (size : Nat) (hs : 0 < size) (src dest : List Nat) :
    (fillLoop size src dest).drop (min (src.length * size) dest.length) =
      dest.drop (min (src.length * size) dest.length) := by
  induction src generalizing dest with
  | nil => simp [fillLoop]
  | cons w ws ih =>
    by_cases h : size ≤ dest.length
    · have hf : min ((w :: ws).length * size) dest.length
          = size + min (ws.length * size) (dest.length - size) := by
        simp only [List.length_cons, Nat.succ_mul]
        generalize ws.length * size = a
        omega
      rw [hf]
      simp only [fillLoop, if_pos h]
      rw [List.drop_append_eq_append_drop]
      rw [List.drop_eq_nil_iff.mpr (by rw [leBytes_length]; omega)]
      rw [leBytes_length, Nat.add_sub_cancel_left]
      have ihd := ih (dest.drop size)
      rw [List.length_drop] at ihd
      rw [List.nil_append, ihd, List.drop_drop]
    · have hf : min ((w :: ws).length * size) dest.length = dest.length := by
        simp only [List.length_cons, Nat.succ_mul]
        generalize ws.length * size = a
        omega
      rw [hf]
      simp only [fillLoop, if_neg h]
      rw [List.drop_eq_nil_iff.mpr (by rw [List.length_take]; omega),
        List.drop_eq_nil_iff.mpr (Nat.le_refl _)]

/-- C1: for both chunk-filling functions, the returned pair is
`(c, f)` with `f = min (dest length) (src length × word size)` and
`c = ceil (f / word size)`, and the first `f` bytes of the new
destination are the concatenated little-endian encodings of the first
`c` source words truncated to `f` bytes. -/
theorem fill_via_chunks_pair_and_bytes_correct (src dest : List Nat) :
    (fill_via_u32_chunks src dest).1
        = (min dest.length (src.length * 4) + 3) / 4 ∧
      (fill_via_u32_chunks src dest).2.1 = min dest.length (src.length * 4) ∧
      (fill_via_u32_chunks src dest).2.2.take
          (min dest.length (src.length * 4))
        = (wordsToBytes 4 (src.take ((fill_via_u32_chunks src dest).1))).take
            (min dest.length (src.length * 4)) ∧
      (fill_via_u64_chunks src dest).1
        = (min dest.length (src.length * 8) + 7) / 8 ∧
      (fill_via_u64_chunks src dest).2.1 = min dest.length (src.length * 8) ∧
      (fill_via_u64_chunks src dest).2.2.take
          (min dest.length (src.length * 8))
        = (wordsToBytes 8 (src.take ((fill_via_u64_chunks src dest).1))).take
            (min dest.length (src.length * 8)) := by
  refine ⟨?_, ?_, ?_, ?_, ?_, ?_⟩
  · simp only [fill_via_u32_chunks, fill_via_chunks]
    omega
  · simp only [fill_via_u32_chunks, fill_via_chunks]
    omega
  · simp only [fill_via_u32_chunks, fill_via_chunks]
    rw [Nat.min_comm dest.length (src.length * 4)]
    exact fillLoop_take_eq 4 (by decide) src dest
  · simp only [fill_via_u64_chunks, fill_via_chunks]
    omega
  · simp only [fill_via_u64_chunks, fill_via_chunks]
    omega
  · simp only [fill_via_u64_chunks, fill_via_chunks]
    rw [Nat.min_comm dest.length (src.length * 8)]
    exact fillLoop_take_eq 8 (by decide) src dest

/-- C4: for both chunk-filling functions, every destination byte at index
`bytes_filled` or beyond keeps the value it had before the call. -/
theorem fill_via_chunks_frame (src dest : List Nat) :
    (fill_via_u32_chunks src dest).2.2.drop ((fill_via_u32_chunks src dest).2.1)
        = dest.drop ((fill_via_u32_chunks src dest).2.1) ∧
      (fill_via_u64_chunks src dest).2.2.drop
          ((fill_via_u64_chunks src dest).2.1)
        = dest.drop ((fill_via_u64_chunks src dest).2.1) := by
  constructor
  · simp only [fill_via_u32_chunks, fill_via_chunks]
    exact fillLoop_drop_eq 4 (by decide) src dest
  · simp only [fill_via_u64_chunks, fill_via_chunks]
    exact fillLoop_drop_eq 8 (by decide) src dest

theorem fillLoop_nil_dest (size : Nat) (hs : 0 < size) (src : List Nat) :
    fillLoop size src [] = [] := by
  cases src with
  | nil => rfl
  | cons w ws => simp [fillLoop, Nat.not_le.mpr hs]

/-- C6: with a zero-length destination both chunk functions return
`(0, 0)`, leave the destination empty, and the result does not depend on
the source contents. -/
theorem fill_via_chunks_empty_dest (src srcB : List Nat) :
    fill_via_u32_chunks src [] = (0, 0, []) ∧
      fill_via_u64_chunks src [] = (0, 0, []) ∧
      fill_via_u32_chunks src [] = fill_via_u32_chunks srcB [] ∧
      fill_via_u64_chunks src [] = fill_via_u64_chunks srcB [] := by
  have h32 : ∀ l : List Nat, fill_via_u32_chunks l [] = (0, 0, []) := by
    intro l
    simp [fill_via_u32_chunks, fill_via_chunks, fillLoop_nil_dest 4 (by decide)]
  have h64 : ∀ l : List Nat, fill_via_u64_chunks l [] = (0, 0, []) := by
    intro l
    simp [fill_via_u64_chunks, fill_via_chunks, fillLoop_nil_dest 8 (by decide)]
  exact ⟨h32 src, h64 src, by rw [h32 src, h32 srcB], by rw [h64 src, h64 srcB]⟩

/-- C9: the number of consumed words never exceeds the source length, so
advancing a read cursor by it stays inside the word buffer. -/
theorem fill_via_chunks_consumed_le_src (src dest : List Nat) :
    (fill_via_u32_chunks src dest).1 ≤ src.length ∧
      (fill_via_u64_chunks src dest).1 ≤ src.length := by
  constructor
  · simp only [fill_via_u32_chunks, fill_via_chunks]
    omega
  · simp only [fill_via_u64_chunks, fill_via_chunks]
    omega

theorem u64Words_zero (R : RngCore σ) (s : σ) : u64Words R s 0 = [] := rfl

theorem u64Words_one (R : RngCore σ) (s : σ) :
    u64Words R s 1 = [(R.next_u64 s).1] := rfl

theorem iterU64_zero (R : RngCore σ) (s : σ) : iterU64 R 0 s = s := rfl

theorem iterU64_one (R : RngCore σ) (s : σ) : iterU64 R 1 s = stepU64 R s := rfl

theorem fillBytesSpec_step (R : RngCore σ) (s : σ) (N : Nat) (h : 8 ≤ N) :
    fillBytesSpec R s N
      = leBytes 8 (R.next_u64 s).1 ++ fillBytesSpec R (stepU64 R s) (N - 8) := by
  have hdiv : N / 8 = (N - 8) / 8 + 1 := by omega
  have hmod : N % 8 = (N - 8) % 8 := by omega
  unfold fillBytesSpec
  rw [hdiv, hmod]
  generalize (if 4 < (N - 8) % 8 then (1 : Nat) else 0) = e
  rw [show (N - 8) / 8 + 1 + e = ((N - 8) / 8 + e) + 1 from by omega]
  simp only [u64Words, wordsToBytes, iterU64]
  rw [List.append_assoc]
  rw [List.take_append_eq_append_take]
  rw [List.take_of_length_le (by rw [leBytes_length]; omega)]
  rw [leBytes_length]

theorem fbvn_spec_eq (R : RngCore σ) (s : σ) (dest : List Nat) :
    (fill_bytes_via_next R s dest).1 = fillBytesSpec R s dest.length := by
  generalize hk : dest.length / 8 = k
  induction k generalizing s dest with
  | zero =>
    have h8 : dest.length < 8 := by omega
    have hm : dest.length % 8 = dest.length := Nat.mod_eq_of_lt h8
    by_cases h4 : 4 < dest.length
    · rw [fbvn_mid R s dest h4 h8]
      simp [fillBytesSpec, hk, hm, h4, u64Words_one, wordsToBytes,
        show ¬(0 < dest.length ∧ dest.length ≤ 4) by omega]
    · by_cases h0 : 0 < dest.length
      · rw [fbvn_small R s dest h0 (by omega)]
        simp [fillBytesSpec, hk, hm, h4, h0, show dest.length ≤ 4 by omega,
          u64Words_zero, wordsToBytes, iterU64_zero]
      · have hd : dest = [] := List.eq_nil_of_length_eq_zero (by omega)
        subst hd
        rw [fbvn_zero R s [] rfl]
        simp [fillBytesSpec]
  | succ k ih =>
    have h8 : 8 ≤ dest.length := by omega
    rw [fbvn_ge8 R s dest h8]
    have hdrop : (dest.drop 8).length / 8 = k := by
      simp [List.length_drop]
      omega
    have ihd := ih (stepU64 R s) (dest.drop 8) hdrop
    dsimp only
    rw [ihd, List.length_drop]
    exact (fillBytesSpec_step R s dest.length h8).symm

/-- C2: `fill_bytes_via_next` writes exactly `N` bytes, and they are the
little-endian encodings of the consumed words in consumption order: the
`u64` draws for the full 8-byte groups, one extra `u64` draw truncated to
the remainder when it exceeds 4 bytes, one `u32` draw truncated to the
remainder when it is between 1 and 4 bytes, and nothing more when the
remainder is 0 (as expressed by `fillBytesSpec`). -/
theorem fill_bytes_via_next_writes_expected_bytes (R : RngCore σ) (s : σ)
    (dest : List Nat) :
    (fill_bytes_via_next R s dest).1.length = dest.length ∧
      (fill_bytes_via_next R s dest).1 = fillBytesSpec R s dest.length :=
  ⟨fill_bytes_via_next_length R s dest, fbvn_spec_eq R s dest⟩

/-- C5: `fill_bytes_via_next` advances the generator by exactly
`floor (N / 8)` `u64` draws for the full groups, plus one extra `u64`
draw when the remainder exceeds 4 bytes, one `u32` draw when the
remainder is between 1 and 4 bytes, and nothing when the remainder is 0;
in particular an empty destination leaves the state untouched. -/
theorem fill_bytes_via_next_consumption (R : RngCore σ) (s : σ)
    (dest : List Nat) :
    (fill_bytes_via_next R s dest).2 =
      if 0 < dest.length % 8 ∧ dest.length % 8 ≤ 4 then
        stepU32 R (iterU64 R (dest.length / 8) s)
      else
        iterU64 R (dest.length / 8 + if 4 < dest.length % 8 then 1 else 0)
          s := by
  generalize hk : dest.length / 8 = k
  induction k generalizing s dest with
  | zero =>
    have h8 : dest.length < 8 := by omega
    have hm : dest.length % 8 = dest.length := Nat.mod_eq_of_lt h8
    by_cases h4 : 4 < dest.length
    · rw [fbvn_mid R s dest h4 h8]
      simp [hm, h4, iterU64_one, show ¬(0 < dest.length ∧ dest.length ≤ 4) by
        omega]
    · by_cases h0 : 0 < dest.length
      · rw [fbvn_small R s dest h0 (by omega)]
        simp [hm, hk, h0, show dest.length ≤ 4 by omega, iterU64_zero]
      · have hd : dest = [] := List.eq_nil_of_length_eq_zero (by omega)
        subst hd
        rw [fbvn_zero R s [] rfl]
        simp [iterU64_zero]
  | succ k ih =>
    have h8 : 8 ≤ dest.length := by omega
    rw [fbvn_ge8 R s dest h8]
    have hdrop : (dest.drop 8).length / 8 = k := by
      simp [List.length_drop]
      omega
    have ihd := ih (stepU64 R s) (dest.drop 8) hdrop
    dsimp only
    rw [ihd, List.length_drop]
    have hmod : (dest.length - 8) % 8 = dest.length % 8 := by omega
    rw [hmod]
    by_cases hc : 0 < dest.length % 8 ∧ dest.length % 8 ≤ 4
    · simp [hc, iterU64]
    · by_cases hc4 : 4 < dest.length % 8
      · simp [hc, hc4, iterU64]
      · simp [hc, hc4, iterU64]

theorem fbvn_eq_fillLoop (R : RngCore σ) (s : σ) (dest : List Nat)
    (h : dest.length % 8 = 0) :
    (fill_bytes_via_next R s dest).1 =
      fillLoop 8 (u64Words R s (dest.length / 8)) dest := by
  generalize hk : dest.length / 8 = k
  induction k generalizing s dest with
  | zero =>
    have hd : dest = [] := List.eq_nil_of_length_eq_zero (by omega)
    subst hd
    rw [fbvn_zero R s [] rfl]
    simp [u64Words_zero, fillLoop]
  | succ k ih =>
    have h8 : 8 ≤ dest.length := by omega
    rw [fbvn_ge8 R s dest h8]
    have hdrop8 : (dest.drop 8).length % 8 = 0 := by
      simp [List.length_drop]
      omega
    have hdrop : (dest.drop 8).length / 8 = k := by
      simp [List.length_drop]
      omega
    have ihd := ih (stepU64 R s) (dest.drop 8) hdrop8 hdrop
    dsimp only
    rw [ihd]
    simp only [u64Words, fillLoop, if_pos h8]

/-- C10: on a destination whose length is a multiple of 8, the word-stream
path `fill_bytes_via_next` writes exactly the bytes that the
pre-produced-block path `fill_via_u64_chunks` writes when given the slice
of the `N / 8` words those `next_u64` calls yield. -/
theorem fill_bytes_via_next_refines_chunks (R : RngCore σ) (s : σ)
    (dest : List Nat) (h : dest.length % 8 = 0) :
    (fill_bytes_via_next R s dest).1 =
      (fill_via_u64_chunks (u64Words R s (dest.length / 8)) dest).2.2 := by
  simp only [fill_via_u64_chunks, fill_via_chunks]
  exact fbvn_eq_fillLoop R s dest h

/-- C3: `next_u64_via_u32` draws two 32-bit words in order, `x` then `y`,
returns `(y << 32) | x = y * 2^32 + x`, advances the state by exactly the
two draws, and the first-drawn word is the low half, the second the high
half. -/
theorem next_u64_via_u32_composes (R : RngCore σ) (s : σ)
    (h32 : R.WfU32) :
    next_u64_via_u32 R s
        = ((R.next_u32 (stepU32 R s)).1 * 2 ^ 32 + (R.next_u32 s).1,
            stepU32 R (stepU32 R s)) ∧
      (next_u64_via_u32 R s).1 % 2 ^ 32 = (R.next_u32 s).1 ∧
      (next_u64_via_u32 R s).1 / 2 ^ 32 = (R.next_u32 (stepU32 R s)).1 := by
  have hx : (R.next_u32 s).1 < 2 ^ 32 := h32 s
  have hkey : next_u64_via_u32 R s
      = ((R.next_u32 (stepU32 R s)).1 * 2 ^ 32 + (R.next_u32 s).1,
          stepU32 R (stepU32 R s)) := by
    unfold next_u64_via_u32
    dsimp only [stepU32]
    have hbits : (R.next_u32 (R.next_u32 s).2).1 <<< 32 ||| (R.next_u32 s).1
        = (R.next_u32 (R.next_u32 s).2).1 * 2 ^ 32 + (R.next_u32 s).1 := by
      rw [Nat.shiftLeft_eq, Nat.mul_comm]
      exact (Nat.mul_add_lt_is_or hx _).symm
    rw [hbits]
  have h232 : (2 : Nat) ^ 32 = 4294967296 := by norm_num
  refine ⟨hkey, ?_, ?_⟩
  · rw [hkey]
    dsimp only
    rw [h232] at hx ⊢
    omega
  · rw [hkey]
    dsimp only
    rw [h232] at hx ⊢
    omega

theorem fillLoopChecked_eq (size : Nat) (hs : 0 < size) (src dest : List Nat) :
    fillLoopChecked size src dest = some (fillLoop size src dest) := by
  induction src generalizing dest with
  | nil => rfl
  | cons w ws ih =>
    by_cases h : size ≤ dest.length
    · simp only [fillLoopChecked, fillLoop, if_pos h]
      have hc : copyFromSlice (dest.take size) (leBytes size w)
          = some (leBytes size w) := by
        unfold copyFromSlice
        rw [if_pos]
        rw [List.length_take, leBytes_length]
        omega
      rw [hc, ih]
    · simp only [fillLoopChecked, fillLoop, if_neg h]
      rw [if_pos (show dest.length ≤ size by omega)]
      unfold copyFromSlice
      rw [if_pos]
      rw [List.length_take, leBytes_length]
      omega

theorem fill_via_chunks_checked_eq (size : Nat) (hs : 0 < size)
    (src dest : List Nat) :
    fill_via_chunks_checked size src dest
      = some (fill_via_chunks size src dest) := by
  unfold fill_via_chunks_checked fill_via_chunks
  rw [if_neg (by omega : ¬ size = 0), fillLoopChecked_eq size hs src dest]
  rfl

theorem fill_bytes_via_next_checked_eq (R : RngCore σ) (s : σ)
    (dest : List Nat) :
    fill_bytes_via_next_checked R s dest
      = some (fill_bytes_via_next R s dest) := by
  generalize hk : dest.length / 8 = k
  induction k generalizing s dest with
  | zero =>
    have h8 : dest.length < 8 := by omega
    by_cases h4 : 4 < dest.length
    · rw [fbvn_mid R s dest h4 h8, fill_bytes_via_next_checked]
      rw [dif_neg (by omega : ¬ 8 ≤ dest.length)]
      rw [if_pos h4, if_pos (by omega : dest.length ≤ 8)]
      have hc : copyFromSlice dest ((leBytes 8 (R.next_u64 s).1).take dest.length)
          = some ((leBytes 8 (R.next_u64 s).1).take dest.length) := by
        unfold copyFromSlice
        rw [if_pos]
        rw [List.length_take, leBytes_length]
        omega
      rw [hc]
      rfl
    · by_cases h0 : 0 < dest.length
      · rw [fbvn_small R s dest h0 (by omega), fill_bytes_via_next_checked]
        rw [dif_neg (by omega : ¬ 8 ≤ dest.length)]
        rw [if_neg h4, if_pos h0, if_pos (by omega : dest.length ≤ 4)]
        have hc : copyFromSlice dest
            ((leBytes 4 (R.next_u32 s).1).take dest.length)
            = some ((leBytes 4 (R.next_u32 s).1).take dest.length) := by
          unfold copyFromSlice
          rw [if_pos]
          rw [List.length_take, leBytes_length]
          omega
        rw [hc]
        rfl
      · rw [fbvn_zero R s dest (by omega), fill_bytes_via_next_checked]
        rw [dif_neg (by omega : ¬ 8 ≤ dest.length)]
        rw [if_neg h4, if_neg (by omega : ¬ 0 < dest.length)]
  | succ k ih =>
    have h8 : 8 ≤ dest.length := by omega
    rw [fbvn_ge8 R s dest h8, fill_bytes_via_next_checked]
    rw [dif_pos h8]
    have hc : copyFromSlice (dest.take 8) (leBytes 8 (R.next_u64 s).1)
        = some (leBytes 8 (R.next_u64 s).1) := by
      unfold copyFromSlice
      rw [if_pos]
      rw [List.length_take, leBytes_length]
      omega
    rw [hc]
    have hdrop : (dest.drop 8).length / 8 = k := by
      simp [List.length_drop]
      omega
    rw [ih (stepU64 R s) (dest.drop 8) hdrop]

/-- C7: every operation is total over its whole input domain: the
panic-checked embeddings (which model every `copy_from_slice` length
precondition and slice bound as a possible panic) succeed on all inputs,
including empty sources, empty destinations and destinations shorter than
one word, and the destination length is always preserved. -/
theorem all_operations_total (R : RngCore σ) (s : σ) (src dest : List Nat) :
    fill_via_chunks_checked 4 src dest = some (fill_via_u32_chunks src dest) ∧
      fill_via_chunks_checked 8 src dest
        = some (fill_via_u64_chunks src dest) ∧
      fill_bytes_via_next_checked R s dest
        = some (fill_bytes_via_next R s dest) ∧
      (fill_via_u32_chunks src dest).2.2.length = dest.length ∧
      (fill_via_u64_chunks src dest).2.2.length = dest.length ∧
      (fill_bytes_via_next R s dest).1.length = dest.length := by
  refine ⟨fill_via_chunks_checked_eq 4 (by decide) src dest,
    fill_via_chunks_checked_eq 8 (by decide) src dest,
    fill_bytes_via_next_checked_eq R s dest, ?_, ?_,
    fill_bytes_via_next_length R s dest⟩
  · simp only [fill_via_u32_chunks, fill_via_chunks]
    exact fillLoop_length 4 (by decide) src dest
  · simp only [fill_via_u64_chunks, fill_via_chunks]
    exact fillLoop_length 8 (by decide) src dest

/-- C8: `next_u32_via_fill` and `next_u64_via_fill` call the fill
operation exactly once, on a local zeroed buffer of exactly 4
respectively 8 bytes, and return the native-endian reinterpretation of
the filled buffer; native-endian is a pass-through, not a forced
little-endian decode, as the two endianness decodings disagree on the
byte pattern `[1, 0, 0, 0]`. -/
theorem next_via_fill_native_endian (R : RngCore σ) (s : σ)
    (litEnd : Bool) :
    next_u32_via_fill litEnd R s
        = (from_ne_bytes litEnd (R.fill_bytes s (List.replicate 4 0)).1,
            (R.fill_bytes s (List.replicate 4 0)).2) ∧
      next_u64_via_fill litEnd R s
        = (from_ne_bytes litEnd (R.fill_bytes s (List.replicate 8 0)).1,
            (R.fill_bytes s (List.replicate 8 0)).2) ∧
      (List.replicate 4 (0 : Nat)).length = 4 ∧
      (List.replicate 8 (0 : Nat)).length = 8 ∧
      from_ne_bytes true [1, 0, 0, 0] = 1 ∧
      from_ne_bytes false [1, 0, 0, 0] = 16777216 :=
  ⟨rfl, rfl, rfl, rfl, rfl, rfl⟩

/-- A concrete deterministic generator used to instantiate theorems that
carry hypotheses. -/
def cntRng : RngCore Nat where
  next_u32 s := (s % 2 ^ 32, s + 1)
  next_u64 s := (s, s + 1)
  fill_bytes s buf := (buf.map fun _ => s % 256, s + 1)

theorem next_u64_via_u32_composes_witness :
    next_u64_via_u32 cntRng 0 = (4294967296, 2) ∧
      (next_u64_via_u32 cntRng 0).1 % 2 ^ 32 = 0 ∧
      (next_u64_via_u32 cntRng 0).1 / 2 ^ 32 = 1 := by
  have h := next_u64_via_u32_composes cntRng 0
    (fun s => Nat.mod_lt s (by norm_num))
  simpa [cntRng, stepU32] using h

theorem fill_bytes_via_next_refines_chunks_witness :
    (fill_bytes_via_next cntRng 0 (List.replicate 16 0)).1 =
      (fill_via_u64_chunks
          (u64Words cntRng 0 ((List.replicate 16 0).length / 8))
          (List.replicate 16 0)).2.2 :=
  fill_bytes_via_next_refines_chunks cntRng 0 (List.replicate 16 0) (by simp)
